import Mathlib

/-!
Shallow embedding of the runtime of convert-case-ts (src/index.ts).

Strings are modelled through their underlying character lists.  JavaScript's
`toUpperCase` / `toLowerCase` are modelled on the ASCII range (the regex
character classes `[a-z]` / `[A-Z]` used by the library are ASCII-only, and all
behaviour the specification describes is ASCII); characters outside the ASCII
letter ranges are left unchanged by the case maps, mirroring their behaviour on
the identifier alphabet the library targets.
-/

namespace ConvertCase

/-- Characters matched by the regex class `[A-Z]` (code points 65..90). -/
def isUpperA (c : Char) : Bool := 65 ≤ c.toNat && c.toNat ≤ 90

/-- Characters matched by the regex class `[a-z]` (code points 97..122). -/
def isLowerA (c : Char) : Bool := 97 ≤ c.toNat && c.toNat ≤ 122

/-- Characters matched by JavaScript's regex `\s`: tab, LF, VT, FF, CR, space,
NBSP, ogham space, the U+2000..U+200A range, line/paragraph separators,
narrow NBSP, math space, ideographic space, and the BOM. -/
def isJsSpace (c : Char) : Bool :=
  c.toNat == 9 || c.toNat == 10 || c.toNat == 11 || c.toNat == 12 ||
  c.toNat == 13 || c.toNat == 32 || c.toNat == 160 || c.toNat == 5760 ||
  (8192 ≤ c.toNat && c.toNat ≤ 8202) || c.toNat == 8232 || c.toNat == 8233 ||
  c.toNat == 8239 || c.toNat == 8287 || c.toNat == 12288 || c.toNat == 65279

/-- Characters matched by the regex class `[\s_-]` used by `splitWords`:
JavaScript whitespace, underscore (95) and hyphen (45). -/
def isDelim (c : Char) : Bool := isJsSpace c || c.toNat == 95 || c.toNat == 45

/-- JavaScript `String.prototype.toLowerCase` restricted to ASCII: maps
`A`..`Z` to `a`..`z` and leaves everything else unchanged. -/
def lowerChar (c : Char) : Char :=
  if isUpperA c then Char.ofNat (c.toNat + 32) else c

/-- JavaScript `String.prototype.toUpperCase` restricted to ASCII: maps
`a`..`z` to `A`..`Z` and leaves everything else unchanged. -/
def upperChar (c : Char) : Char :=
  if isLowerA c then Char.ofNat (c.toNat - 32) else c

/-- The global replace `str.replace(/([a-z])([A-Z])/g, "$1 $2")`: a space is
inserted between a lowercase letter and an immediately following uppercase
letter; after a match the scan resumes after the matched pair, exactly as
JavaScript's non-overlapping global regex scan does. -/
def rep1 : List Char → List Char
  | c1 :: c2 :: rest =>
    if isLowerA c1 && isUpperA c2 then
      c1 :: ' ' :: c2 :: rep1 rest
    else
      c1 :: rep1 (c2 :: rest)
  | l => l

/-- The global replace `str.replace(/([A-Z])([A-Z][a-z])/g, "$1 $2")`: a space
is inserted between two adjacent uppercase letters when the second is
immediately followed by a lowercase letter; the scan resumes after the three
matched characters, as JavaScript's non-overlapping global regex scan does. -/
def rep2 : List Char → List Char
  | c1 :: c2 :: c3 :: rest =>
    if isUpperA c1 && isUpperA c2 && isLowerA c3 then
      c1 :: ' ' :: c2 :: c3 :: rep2 rest
    else
      c1 :: rep2 (c2 :: c3 :: rest)
  | l => l

/-- The composition `.split(/[\s_-]+/).filter(Boolean)`: the maximal runs of
non-delimiter characters, in order.  Splitting on runs of delimiters and then
discarding empty segments yields exactly these runs. -/
def tokens : List Char → List (List Char)
  | [] => []
  | [c] => if isDelim c then [] else [[c]]
  | c :: d :: rest =>
    if isDelim c then
      tokens (d :: rest)
    else if isDelim d then
      [c] :: tokens rest
    else
      match tokens (d :: rest) with
      | [] => [[c]]
      | t :: ts => (c :: t) :: ts

/-- The word lists produced by `splitWords`, kept as character lists. -/
def wordsOf (s : String) : List (List Char) := tokens (rep2 (rep1 s.data))

/-- The helper `splitWords` from src/index.ts. -/
def splitWords (s : String) : List String := (wordsOf s).map String.mk

/-- One word mapped by `word.charAt(0).toUpperCase() + word.slice(1).toLowerCase()`. -/
def capWordJs : List Char → List Char
  | [] => []
  | c :: cs => upperChar c :: cs.map lowerChar

/-- The exported `camelCase` function: first word lowercased, every further
word capitalised-then-lowercased, all joined with no separator; an empty word
list yields the empty string. -/
def camelCase (s : String) : String :=
  match wordsOf s with
  | [] => ""
  | w :: rest => String.mk (w.map lowerChar ++ (rest.map capWordJs).flatten)

/-- The exported `pascalCase` function: every word capitalised-then-lowercased
and joined with no separator. -/
def pascalCase (s : String) : String :=
  let ws := wordsOf s
  if ws.isEmpty then "" else String.mk ((ws.map capWordJs).flatten)

/-- JavaScript `Array.prototype.join` with a one-character separator. -/
def joinSep (e : Char) : List (List Char) → List Char
  | [] => []
  | [w] => w
  | w :: ws => w ++ e :: joinSep e ws

/-- The exported `snakeCase` function: every word lowercased, joined by `_`. -/
def snakeCase (s : String) : String :=
  let ws := wordsOf s
  if ws.isEmpty then "" else
    String.mk (joinSep '_' (ws.map (List.map lowerChar)))

/-- The exported `kebabCase` function: every word lowercased, joined by `-`. -/
def kebabCase (s : String) : String :=
  let ws := wordsOf s
  if ws.isEmpty then "" else
    String.mk (joinSep '-' (ws.map (List.map lowerChar)))

/-- The exported `screamingSnakeCase` function: every word uppercased, joined
by `_`. -/
def screamingSnakeCase (s : String) : String :=
  let ws := wordsOf s
  if ws.isEmpty then "" else
    String.mk (joinSep '_' (ws.map (List.map upperChar)))

/-- The exported `uppercase` function (`str.toUpperCase()`). -/
def uppercase (s : String) : String := String.mk (s.data.map upperChar)

/-- The exported `lowercase` function (`str.toLowerCase()`). -/
def lowercase (s : String) : String := String.mk (s.data.map lowerChar)

/-- JavaScript `str.charAt(i)`: the one-character string at index `i`, or the
empty string when the index is out of range. -/
def jsCharAt (s : String) (i : Nat) : String :=
  match s.data[i]? with
  | some c => String.mk [c]
  | none => ""

/-- JavaScript `str.slice(i)` for a non-negative index. -/
def jsSliceFrom (s : String) (i : Nat) : String := String.mk (s.data.drop i)

/-- The exported `capitalize` function:
`str.charAt(0).toUpperCase() + str.slice(1)`. -/
def capitalize (s : String) : String :=
  String.mk ((jsCharAt s 0).data.map upperChar) ++ jsSliceFrom s 1

/-- The exported `uncapitalize` function:
`str.charAt(0).toLowerCase() + str.slice(1)`. -/
def uncapitalize (s : String) : String :=
  String.mk ((jsCharAt s 0).data.map lowerChar) ++ jsSliceFrom s 1

/-- JavaScript `str.slice(-2)`: the last two characters (the whole string when
it is shorter). -/
def sliceLast2 (l : List Char) : List Char := l.drop (l.length - 2)

/-- The exported `pluralize` function: empty input yields `""`; a trailing `y`
becomes `ies`; otherwise a trailing `s`/`x`/`z` or a trailing `ch`/`sh`
receives `es`; otherwise `s` is appended. -/
def pluralize (s : String) : String :=
  let l := s.data
  if l.isEmpty then ""
  else if l.getLast? = some 'y' then String.mk (l.take (l.length - 1) ++ ['i', 'e', 's'])
  else if l.getLast? = some 's' ∨ l.getLast? = some 'x' ∨ l.getLast? = some 'z'
      ∨ sliceLast2 l = ['c', 'h'] ∨ sliceLast2 l = ['s', 'h'] then
    String.mk (l ++ ['e', 's'])
  else String.mk (l ++ ['s'])

/-- JavaScript `str.slice(-4, -2)`: two characters ending two before the end
(fewer when the string is shorter). -/
def sliceM4M2 (l : List Char) : List Char :=
  (l.drop (l.length - 4)).take ((l.length - 2) - (l.length - 4))

/-- The exported `singularize` function, mirroring the runtime's guard order:
`ies` (length > 3) becomes `y`; a trailing `es` (length > 2) is stripped when
`slice(-4,-2)` is `ch`/`sh`/`ss` or the character at `length - 3` is
`s`/`x`/`z`; otherwise a trailing `s` (length > 1) is stripped; otherwise the
string is returned unchanged. -/
def singularize (s : String) : String :=
  let l := s.data
  if l.isEmpty then s
  else if ['i', 'e', 's'] <:+ l ∧ 3 < l.length then
    String.mk (l.take (l.length - 3) ++ ['y'])
  else if (['e', 's'] <:+ l ∧ 2 < l.length) ∧
      (sliceM4M2 l = ['c', 'h'] ∨ sliceM4M2 l = ['s', 'h'] ∨ sliceM4M2 l = ['s', 's']
        ∨ l[l.length - 3]? = some 's' ∨ l[l.length - 3]? = some 'x'
        ∨ l[l.length - 3]? = some 'z') then
    String.mk (l.take (l.length - 2))
  else if ['s'] <:+ l ∧ 1 < l.length then String.mk (l.take (l.length - 1))
  else s

/-- Specification model of the pluralization rules, written from the spec's
wording for comparison with the implementation: first matching rule wins;
rule 1: ends with `y`, replace the trailing `y` by `ies`; rule 2: ends with
`s`, `x`, `z`, or the two-character suffixes `ch`/`sh`, append `es`; rule 3:
append `s`. -/
def pluralizeSpec (s : String) : String :=
  let l := s.data
  if ['y'] <:+ l then String.mk (l.take (l.length - 1) ++ ['i', 'e', 's'])
  else if ['s'] <:+ l ∨ ['x'] <:+ l ∨ ['z'] <:+ l
      ∨ ['c', 'h'] <:+ l ∨ ['s', 'h'] <:+ l then
    String.mk (l ++ ['e', 's'])
  else String.mk (l ++ ['s'])

/-- Specification model of the singularization rules, written from the spec's
wording for comparison with the implementation: rule 1: ends with `ies` and
length > 3, replace the trailing `ies` by `y`; rule 2: ends with `es`, length
> 2, and either the two characters preceding the `es` are `ch`, `sh` or `ss`
(equivalently the string ends with `ches`/`shes`/`sses`), or the character
third from the end is `s`, `x` or `z`: strip the trailing `es`; rule 3: ends
with `s` and length > 1, strip the trailing `s`; rule 4: unchanged. -/
def singularizeSpec (s : String) : String :=
  let l := s.data
  if ['i', 'e', 's'] <:+ l ∧ 3 < l.length then
    String.mk (l.take (l.length - 3) ++ ['y'])
  else if (['e', 's'] <:+ l ∧ 2 < l.length) ∧
      (['c', 'h', 'e', 's'] <:+ l ∨ ['s', 'h', 'e', 's'] <:+ l
        ∨ ['s', 's', 'e', 's'] <:+ l
        ∨ l[l.length - 3]? = some 's' ∨ l[l.length - 3]? = some 'x'
        ∨ l[l.length - 3]? = some 'z') then
    String.mk (l.take (l.length - 2))
  else if ['s'] <:+ l ∧ 1 < l.length then String.mk (l.take (l.length - 1))
  else s

/-! Character-level lemmas about the ASCII case maps and the delimiter class. -/

theorem toNat_ofNat_lt {n : Nat} (h : n < 55296) : (Char.ofNat n).toNat = n := by
  simp [Char.ofNat, Nat.isValidChar, h, Char.ofNatAux, Char.toNat, UInt32.toNat]

theorem isUpperA_true_iff {c : Char} : isUpperA c = true ↔ 65 ≤ c.toNat ∧ c.toNat ≤ 90 := by
  simp [isUpperA]

theorem isUpperA_false_iff {c : Char} : isUpperA c = false ↔ c.toNat < 65 ∨ 90 < c.toNat := by
  simp [isUpperA]; omega

theorem isLowerA_true_iff {c : Char} : isLowerA c = true ↔ 97 ≤ c.toNat ∧ c.toNat ≤ 122 := by
  simp [isLowerA]

theorem isLowerA_false_iff {c : Char} : isLowerA c = false ↔ c.toNat < 97 ∨ 122 < c.toNat := by
  simp [isLowerA]; omega

theorem isUpperA_false_of_lower {c : Char} (h : isLowerA c = true) : isUpperA c = false := by
  rw [isLowerA_true_iff] at h; rw [isUpperA_false_iff]; omega

theorem isLowerA_false_of_upper {c : Char} (h : isUpperA c = true) : isLowerA c = false := by
  rw [isUpperA_true_iff] at h; rw [isLowerA_false_iff]; omega

theorem isDelim_false_of_letter {c : Char}
    (h : (65 ≤ c.toNat ∧ c.toNat ≤ 90) ∨ (97 ≤ c.toNat ∧ c.toNat ≤ 122)) :
    isDelim c = false := by
  simp [isDelim, isJsSpace]; omega

theorem lowerChar_toNat {c : Char} (h : isUpperA c = true) :
    (lowerChar c).toNat = c.toNat + 32 := by
  have hb := isUpperA_true_iff.mp h
  rw [lowerChar, if_pos h]
  exact toNat_ofNat_lt (by omega)

theorem lowerChar_eq_self {c : Char} (h : isUpperA c = false) : lowerChar c = c := by
  simp [lowerChar, h]

theorem upperChar_toNat {c : Char} (h : isLowerA c = true) :
    (upperChar c).toNat = c.toNat - 32 := by
  have hb := isLowerA_true_iff.mp h
  rw [upperChar, if_pos h]
  exact toNat_ofNat_lt (by omega)

theorem upperChar_eq_self {c : Char} (h : isLowerA c = false) : upperChar c = c := by
  simp [upperChar, h]

theorem isUpperA_lowerChar (c : Char) : isUpperA (lowerChar c) = false := by
  cases h : isUpperA c with
  | false => rw [lowerChar_eq_self h]; exact h
  | true =>
    have hb := isUpperA_true_iff.mp h
    rw [isUpperA_false_iff, lowerChar_toNat h]; omega

theorem isLowerA_upperChar (c : Char) : isLowerA (upperChar c) = false := by
  cases h : isLowerA c with
  | false => rw [upperChar_eq_self h]; exact h
  | true =>
    have hb := isLowerA_true_iff.mp h
    rw [isLowerA_false_iff, upperChar_toNat h]; omega

theorem lowerChar_idem (c : Char) : lowerChar (lowerChar c) = lowerChar c :=
  lowerChar_eq_self (isUpperA_lowerChar c)

theorem upperChar_idem (c : Char) : upperChar (upperChar c) = upperChar c :=
  upperChar_eq_self (isLowerA_upperChar c)

theorem isDelim_lowerChar {c : Char} (h : isDelim c = false) :
    isDelim (lowerChar c) = false := by
  cases hu : isUpperA c with
  | false => rw [lowerChar_eq_self hu]; exact h
  | true =>
    have hb := isUpperA_true_iff.mp hu
    exact isDelim_false_of_letter (by rw [lowerChar_toNat hu]; omega)

theorem isDelim_upperChar {c : Char} (h : isDelim c = false) :
    isDelim (upperChar c) = false := by
  cases hu : isLowerA c with
  | false => rw [upperChar_eq_self hu]; exact h
  | true =>
    have hb := isLowerA_true_iff.mp hu
    exact isDelim_false_of_letter (by rw [upperChar_toNat hu]; omega)

/-! Lemmas about the two regex-replace passes. -/

theorem rep1_cons_cons_of_false {a b : Char} {z : List Char}
    (hc : (isLowerA a && isUpperA b) = false) :
    rep1 (a :: b :: z) = a :: rep1 (b :: z) := by
  simp [rep1, hc]

theorem rep1_cons_cons_of_true {a b : Char} {z : List Char}
    (hc : (isLowerA a && isUpperA b) = true) :
    rep1 (a :: b :: z) = a :: ' ' :: b :: rep1 z := by
  simp [rep1, hc]

theorem rep1_cons_of_no_lower {a : Char} {z : List Char} (ha : isLowerA a = false) :
    rep1 (a :: z) = a :: rep1 z := by
  match z with
  | [] => rfl
  | b :: z' => rw [rep1_cons_cons_of_false (by simp [ha])]

theorem rep1_eq_self_of_no_upper {l : List Char} (h : ∀ c ∈ l, isUpperA c = false) :
    rep1 l = l := by
  induction l with
  | nil => rfl
  | cons a z ih =>
    match z with
    | [] => rfl
    | b :: z' =>
      rw [rep1_cons_cons_of_false (by simp [h b (by simp)])]
      rw [ih fun c hc => h c (by simp [hc])]

theorem rep1_eq_self_of_no_lower {l : List Char} (h : ∀ c ∈ l, isLowerA c = false) :
    rep1 l = l := by
  induction l with
  | nil => rfl
  | cons a z ih =>
    rw [rep1_cons_of_no_lower (h a (by simp))]
    rw [ih fun c hc => h c (by simp [hc])]

theorem rep1_append_of_no_lower {p t : List Char} (h : ∀ c ∈ p, isLowerA c = false) :
    rep1 (p ++ t) = p ++ rep1 t := by
  induction p with
  | nil => rfl
  | cons a p' ih =>
    rw [List.cons_append, rep1_cons_of_no_lower (h a (by simp))]
    rw [ih fun c hc => h c (by simp [hc])]
    rfl

theorem rep2_cons_cons_cons_of_false {a b c : Char} {z : List Char}
    (hc : (isUpperA a && isUpperA b && isLowerA c) = false) :
    rep2 (a :: b :: c :: z) = a :: rep2 (b :: c :: z) := by
  simp [rep2, hc]

theorem rep2_cons_cons_cons_of_true {a b c : Char} {z : List Char}
    (hc : (isUpperA a && isUpperA b && isLowerA c) = true) :
    rep2 (a :: b :: c :: z) = a :: ' ' :: b :: c :: rep2 z := by
  simp [rep2, hc]

theorem rep2_cons_of_no_upper {a : Char} {z : List Char} (ha : isUpperA a = false) :
    rep2 (a :: z) = a :: rep2 z := by
  match z with
  | [] => rfl
  | [b] => rfl
  | b :: c :: z' => rw [rep2_cons_cons_cons_of_false (by simp [ha])]

theorem rep2_eq_self_of_no_upper {l : List Char} (h : ∀ c ∈ l, isUpperA c = false) :
    rep2 l = l := by
  induction l with
  | nil => rfl
  | cons a z ih =>
    rw [rep2_cons_of_no_upper (h a (by simp))]
    rw [ih fun c hc => h c (by simp [hc])]

theorem rep2_eq_self_of_no_lower {l : List Char} (h : ∀ c ∈ l, isLowerA c = false) :
    rep2 l = l := by
  induction l with
  | nil => rfl
  | cons a z ih =>
    have htail : rep2 z = z := ih fun c hc => h c (by simp [hc])
    match z, htail with
    | [], _ => rfl
    | [b], _ => rfl
    | b :: c :: z', htail =>
      rw [rep2_cons_cons_cons_of_false (by simp [h c (by simp)]), htail]

theorem rep2_append_of_no_upper {p t : List Char} (h : ∀ c ∈ p, isUpperA c = false) :
    rep2 (p ++ t) = p ++ rep2 t := by
  induction p with
  | nil => rfl
  | cons a p' ih =>
    rw [List.cons_append, rep2_cons_of_no_upper (h a (by simp))]
    rw [ih fun c hc => h c (by simp [hc])]
    rfl

theorem rep1_junction {p R : List Char} (hp : ∀ c ∈ p, isLowerA c = true) (hp0 : p ≠ [])
    (hR : ∀ c ∈ R, isUpperA c = true) (hR0 : R ≠ []) :
    rep1 (p ++ R) = p ++ ' ' :: R := by
  induction p with
  | nil => exact absurd rfl hp0
  | cons a p' ih =>
    match p' with
    | [] =>
      match R, hR0 with
      | r :: R', _ =>
        rw [List.singleton_append,
          rep1_cons_cons_of_true (by simp [hp a (by simp), hR r (by simp)])]
        rw [rep1_eq_self_of_no_lower fun c hc =>
          isLowerA_false_of_upper (hR c (by simp [hc]))]
        rfl
    | b :: p'' =>
      simp only [List.cons_append] at ih ⊢
      rw [rep1_cons_cons_of_false (by simp [isUpperA_false_of_lower (hp b (by simp))])]
      rw [ih (fun c hc => hp c (by simp [hc])) (by simp)]

theorem rep2_acronym {U w : List Char} {u c : Char} (hU : ∀ a ∈ U, isUpperA a = true)
    (hU0 : U ≠ []) (hu : isUpperA u = true) (hc : isLowerA c = true)
    (hw : ∀ a ∈ w, isLowerA a = true) :
    rep2 (U ++ u :: c :: w) = U ++ ' ' :: u :: c :: w := by
  induction U with
  | nil => exact absurd rfl hU0
  | cons a U' ih =>
    match U' with
    | [] =>
      rw [List.singleton_append,
        rep2_cons_cons_cons_of_true (by simp [hU a (by simp), hu, hc])]
      rw [rep2_eq_self_of_no_upper fun x hx =>
        isUpperA_false_of_lower (hw x hx)]
      rfl
    | b :: U'' =>
      simp only [List.cons_append] at ih ⊢
      match U'' with
      | [] =>
        simp only [List.nil_append] at ih ⊢
        rw [rep2_cons_cons_cons_of_false (by simp [isLowerA_false_of_upper hu])]
        rw [ih (fun x hx => hU x (List.mem_cons_of_mem a hx)) (by simp)]
      | b' :: U3 =>
        simp only [List.cons_append] at ih ⊢
        rw [rep2_cons_cons_cons_of_false
          (by simp [isLowerA_false_of_upper (hU b' (by simp))])]
        rw [ih (fun x hx => hU x (List.mem_cons_of_mem a hx)) (by simp)]

/-! Lemmas about the tokenisation pass. -/

theorem tokens_mem_ne_nil {l : List Char} : ∀ w ∈ tokens l, w ≠ [] := by
  induction l using tokens.induct with
  | case1 => simp [tokens]
  | case2 c h => simp [tokens, h]
  | case3 c h => simp [tokens, h]
  | case4 c d rest h ih =>
    intro w hw
    simp [tokens, h] at hw
    exact ih w hw
  | case5 c d rest h1 h2 ih =>
    intro w hw
    simp [tokens, h1, h2] at hw
    rcases hw with h | h
    · simp [h]
    · exact ih w h
  | case6 c d rest h1 h2 hx ih =>
    intro w hw
    simp [tokens, h1, h2, hx] at hw
    simp [hw]
  | case7 c d rest h1 h2 t ts hx ih =>
    intro w hw
    simp [tokens, h1, h2, hx] at hw
    rcases hw with h | h
    · simp [h]
    · exact ih w (by rw [hx]; exact List.mem_cons_of_mem t h)

theorem tokens_mem_nodelim {l : List Char} :
    ∀ w ∈ tokens l, ∀ c ∈ w, isDelim c = false := by
  induction l using tokens.induct with
  | case1 => simp [tokens]
  | case2 c h => simp [tokens, h]
  | case3 c h =>
    intro w hw x hx
    simp [tokens, h] at hw
    subst hw
    simp at hx
    subst hx
    simpa using h
  | case4 c d rest h ih =>
    intro w hw
    simp [tokens, h] at hw
    exact ih w hw
  | case5 c d rest h1 h2 ih =>
    intro w hw x hx
    simp [tokens, h1, h2] at hw
    rcases hw with h | h
    · subst h
      simp at hx
      subst hx
      simpa using h1
    · exact ih w h x hx
  | case6 c d rest h1 h2 hx ih =>
    intro w hw x hxx
    simp [tokens, h1, h2, hx] at hw
    subst hw
    simp at hxx
    subst hxx
    simpa using h1
  | case7 c d rest h1 h2 t ts hx ih =>
    intro w hw x hxx
    simp [tokens, h1, h2, hx] at hw
    rcases hw with h | h
    · subst h
      rcases List.mem_cons.mp hxx with h' | h'
      · subst h'
        simpa using h1
      · exact ih t (by rw [hx]; exact List.mem_cons_self t ts) x h'
    · exact ih w (by rw [hx]; exact List.mem_cons_of_mem t h) x hxx

theorem tokens_single {w : List Char} (hw0 : w ≠ [])
    (hwd : ∀ c ∈ w, isDelim c = false) : tokens w = [w] := by
  induction w with
  | nil => exact absurd rfl hw0
  | cons c w' ih =>
    match w' with
    | [] => simp [tokens, hwd c (by simp)]
    | d :: w'' =>
      have hih := ih (by simp) fun x hx => hwd x (List.mem_cons_of_mem c hx)
      simp [tokens, hwd c (by simp), hwd d (by simp), hih]

theorem tokens_sep {w : List Char} {e : Char} (t : List Char) (hw0 : w ≠ [])
    (hwd : ∀ c ∈ w, isDelim c = false) (he : isDelim e = true) :
    tokens (w ++ e :: t) = w :: tokens t := by
  induction w with
  | nil => exact absurd rfl hw0
  | cons c w' ih =>
    match w' with
    | [] => simp [tokens, hwd c (by simp), he]
    | d :: w'' =>
      have hih := ih (by simp) fun x hx => hwd x (List.mem_cons_of_mem c hx)
      simp only [List.cons_append] at hih ⊢
      simp [tokens, hwd c (by simp), hwd d (by simp), hih]

theorem tokens_joinSep {ws : List (List Char)} {e : Char}
    (h0 : ∀ w ∈ ws, w ≠ []) (hd : ∀ w ∈ ws, ∀ c ∈ w, isDelim c = false)
    (he : isDelim e = true) : tokens (joinSep e ws) = ws := by
  induction ws with
  | nil => rfl
  | cons w ws' ih =>
    match ws' with
    | [] => exact tokens_single (h0 w (by simp)) (hd w (by simp))
    | w' :: ws'' =>
      have hih := ih (fun x hx => h0 x (List.mem_cons_of_mem w hx))
        (fun x hx => hd x (List.mem_cons_of_mem w hx))
      have hjoin : joinSep e (w :: w' :: ws'') = w ++ e :: joinSep e (w' :: ws'') := by
        simp [joinSep]
      rw [hjoin, tokens_sep _ (h0 w (by simp)) (hd w (by simp)) he, hih]

theorem mem_joinSep {ws : List (List Char)} {e c : Char}
    (hc : c ∈ joinSep e ws) : c = e ∨ ∃ w ∈ ws, c ∈ w := by
  induction ws with
  | nil => simp [joinSep] at hc
  | cons w ws' ih =>
    match ws' with
    | [] =>
      right
      exact ⟨w, by simp, hc⟩
    | w' :: ws'' =>
      have hjoin : joinSep e (w :: w' :: ws'') = w ++ e :: joinSep e (w' :: ws'') := by
        simp [joinSep]
      rw [hjoin] at hc
      rcases List.mem_append.mp hc with h | h
      · exact Or.inr ⟨w, by simp, h⟩
      · rcases List.mem_cons.mp h with h' | h'
        · exact Or.inl h'
        · rcases ih h' with h'' | ⟨x, hx1, hx2⟩
          · exact Or.inl h''
          · exact Or.inr ⟨x, List.mem_cons_of_mem w hx1, hx2⟩

/-! Re-splitting a joined word list: the machinery behind idempotence of the
delimiter-joined styles. -/

theorem wordsOf_mem_ne_nil {s : String} : ∀ w ∈ wordsOf s, w ≠ [] :=
  tokens_mem_ne_nil

theorem wordsOf_mem_nodelim {s : String} :
    ∀ w ∈ wordsOf s, ∀ c ∈ w, isDelim c = false :=
  tokens_mem_nodelim

theorem wordsOf_mk_joinSep {ws : List (List Char)} {e : Char}
    (he : isDelim e = true) (heU : isUpperA e = false) (heL : isLowerA e = false)
    (h0 : ∀ w ∈ ws, w ≠ [])
    (hd : ∀ w ∈ ws, ∀ c ∈ w, isDelim c = false)
    (hcase : (∀ w ∈ ws, ∀ c ∈ w, isUpperA c = false) ∨
      (∀ w ∈ ws, ∀ c ∈ w, isLowerA c = false)) :
    wordsOf (String.mk (joinSep e ws)) = ws := by
  have hdata : (String.mk (joinSep e ws)).data = joinSep e ws := rfl
  rw [wordsOf, hdata]
  rcases hcase with hc | hc
  · have hnu : ∀ c ∈ joinSep e ws, isUpperA c = false := by
      intro c hcm
      rcases mem_joinSep hcm with h | ⟨w, hw1, hw2⟩
      · rw [h]; exact heU
      · exact hc w hw1 c hw2
    rw [rep1_eq_self_of_no_upper hnu, rep2_eq_self_of_no_upper hnu,
      tokens_joinSep h0 hd he]
  · have hnl : ∀ c ∈ joinSep e ws, isLowerA c = false := by
      intro c hcm
      rcases mem_joinSep hcm with h | ⟨w, hw1, hw2⟩
      · rw [h]; exact heL
      · exact hc w hw1 c hw2
    rw [rep1_eq_self_of_no_lower hnl, rep2_eq_self_of_no_lower hnl,
      tokens_joinSep h0 hd he]

theorem wordsOf_joined_map {s : String} {f : Char → Char} {e : Char}
    (he : isDelim e = true)
    (heU : isUpperA e = false) (heL : isLowerA e = false)
    (hfD : ∀ c, isDelim c = false → isDelim (f c) = false)
    (hfcase : (∀ c, isUpperA (f c) = false) ∨ (∀ c, isLowerA (f c) = false)) :
    wordsOf (String.mk (joinSep e ((wordsOf s).map (List.map f)))) =
      (wordsOf s).map (List.map f) := by
  apply wordsOf_mk_joinSep he heU heL
  · intro x hx
    rcases List.mem_map.mp hx with ⟨w, hw, rfl⟩
    have hne := wordsOf_mem_ne_nil w hw
    match w, hne with
    | c :: w', _ => simp
  · intro x hx c hc
    rcases List.mem_map.mp hx with ⟨w, hw, rfl⟩
    rcases List.mem_map.mp hc with ⟨c0, hc0, rfl⟩
    exact hfD c0 (wordsOf_mem_nodelim w hw c0 hc0)
  · rcases hfcase with h | h
    · left
      intro x hx c hc
      rcases List.mem_map.mp hx with ⟨w, hw, rfl⟩
      rcases List.mem_map.mp hc with ⟨c0, hc0, rfl⟩
      exact h c0
    · right
      intro x hx c hc
      rcases List.mem_map.mp hx with ⟨w, hw, rfl⟩
      rcases List.mem_map.mp hc with ⟨c0, hc0, rfl⟩
      exact h c0

theorem mapW_idem {f : Char → Char} (hfi : ∀ c, f (f c) = f c)
    (ws : List (List Char)) :
    (ws.map (List.map f)).map (List.map f) = ws.map (List.map f) := by
  have h1 : f ∘ f = f := funext hfi
  have h2 : (List.map f) ∘ (List.map f) = (List.map f : List Char → List Char) :=
    funext fun w => by rw [Function.comp_apply, List.map_map, h1]
  rw [List.map_map, h2]

theorem mapW_ne_nil {f : Char → Char} {ws : List (List Char)} (h : ws ≠ []) :
    ws.map (List.map f) ≠ [] := by
  match ws, h with
  | w :: ws', _ => simp

theorem snakeCase_eq_joined {s : String} (h : wordsOf s ≠ []) :
    snakeCase s = String.mk (joinSep '_' ((wordsOf s).map (List.map lowerChar))) := by
  have hne : ¬(wordsOf s).isEmpty = true := fun hc => h (List.isEmpty_iff.mp hc)
  simp [snakeCase, hne]

theorem kebabCase_eq_joined {s : String} (h : wordsOf s ≠ []) :
    kebabCase s = String.mk (joinSep '-' ((wordsOf s).map (List.map lowerChar))) := by
  have hne : ¬(wordsOf s).isEmpty = true := fun hc => h (List.isEmpty_iff.mp hc)
  simp [kebabCase, hne]

theorem screamingSnakeCase_eq_joined {s : String} (h : wordsOf s ≠ []) :
    screamingSnakeCase s =
      String.mk (joinSep '_' ((wordsOf s).map (List.map upperChar))) := by
  have hne : ¬(wordsOf s).isEmpty = true := fun hc => h (List.isEmpty_iff.mp hc)
  simp [screamingSnakeCase, hne]

theorem snakeCase_idem (s : String) : snakeCase (snakeCase s) = snakeCase s := by
  by_cases hws : wordsOf s = []
  · have h1 : snakeCase s = "" := by simp [snakeCase, hws]
    rw [h1]
    decide
  · rw [snakeCase_eq_joined hws]
    have hwords := wordsOf_joined_map (s := s) (f := lowerChar) (e := '_')
      (by decide) (by decide) (by decide)
      (fun c => isDelim_lowerChar) (Or.inl isUpperA_lowerChar)
    rw [snakeCase_eq_joined (by rw [hwords]; exact mapW_ne_nil hws), hwords,
      mapW_idem lowerChar_idem]

theorem kebabCase_idem (s : String) : kebabCase (kebabCase s) = kebabCase s := by
  by_cases hws : wordsOf s = []
  · have h1 : kebabCase s = "" := by simp [kebabCase, hws]
    rw [h1]
    decide
  · rw [kebabCase_eq_joined hws]
    have hwords := wordsOf_joined_map (s := s) (f := lowerChar) (e := '-')
      (by decide) (by decide) (by decide)
      (fun c => isDelim_lowerChar) (Or.inl isUpperA_lowerChar)
    rw [kebabCase_eq_joined (by rw [hwords]; exact mapW_ne_nil hws), hwords,
      mapW_idem lowerChar_idem]

theorem screamingSnakeCase_idem (s : String) :
    screamingSnakeCase (screamingSnakeCase s) = screamingSnakeCase s := by
  by_cases hws : wordsOf s = []
  · have h1 : screamingSnakeCase s = "" := by simp [screamingSnakeCase, hws]
    rw [h1]
    decide
  · rw [screamingSnakeCase_eq_joined hws]
    have hwords := wordsOf_joined_map (s := s) (f := upperChar) (e := '_')
      (by decide) (by decide) (by decide)
      (fun c => isDelim_upperChar) (Or.inr isLowerA_upperChar)
    rw [screamingSnakeCase_eq_joined (by rw [hwords]; exact mapW_ne_nil hws), hwords,
      mapW_idem upperChar_idem]

/-! Shape lemmas for the splitter on segments built from case runs. -/

theorem isDelim_false_of_upperA {c : Char} (h : isUpperA c = true) : isDelim c = false :=
  isDelim_false_of_letter (Or.inl (isUpperA_true_iff.mp h))

theorem isDelim_false_of_lowerA {c : Char} (h : isLowerA c = true) : isDelim c = false :=
  isDelim_false_of_letter (Or.inr (isLowerA_true_iff.mp h))

theorem splitWords_acronym {U w' : List Char} {u c : Char}
    (hU : ∀ a ∈ U, isUpperA a = true) (hU0 : U ≠ [])
    (hu : isUpperA u = true) (hc : isLowerA c = true)
    (hw : ∀ a ∈ w', isLowerA a = true) :
    splitWords (String.mk (U ++ u :: c :: w')) =
      [String.mk U, String.mk (u :: c :: w')] := by
  rw [splitWords, wordsOf, show (String.mk (U ++ u :: c :: w')).data = U ++ u :: c :: w' from rfl]
  have hcw : rep1 (c :: w') = c :: w' := rep1_eq_self_of_no_upper (by
    intro x hx
    rcases List.mem_cons.mp hx with h | h
    · rw [h]; exact isUpperA_false_of_lower hc
    · exact isUpperA_false_of_lower (hw x h))
  have h1 : rep1 ((U ++ [u]) ++ c :: w') = (U ++ [u]) ++ rep1 (c :: w') :=
    rep1_append_of_no_lower (by
      intro x hx
      rcases List.mem_append.mp hx with h | h
      · exact isLowerA_false_of_upper (hU x h)
      · simp only [List.mem_singleton] at h
        rw [h]; exact isLowerA_false_of_upper hu)
  rw [hcw] at h1
  have h1' : rep1 (U ++ u :: c :: w') = U ++ u :: c :: w' := by
    simpa [List.append_assoc] using h1
  rw [h1', rep2_acronym hU hU0 hu hc hw,
    tokens_sep (u :: c :: w') hU0 (fun x hx => isDelim_false_of_upperA (hU x hx))
      (by decide),
    tokens_single (by simp) (by
      intro x hx
      rcases List.mem_cons.mp hx with h | h
      · rw [h]; exact isDelim_false_of_upperA hu
      · rcases List.mem_cons.mp h with h' | h'
        · rw [h']; exact isDelim_false_of_lowerA hc
        · exact isDelim_false_of_lowerA (hw x h'))]
  rfl

theorem splitWords_upper_run {R : List Char}
    (hR : ∀ a ∈ R, isUpperA a = true) (hR0 : R ≠ []) :
    splitWords (String.mk R) = [String.mk R] := by
  rw [splitWords, wordsOf, show (String.mk R).data = R from rfl,
    rep1_eq_self_of_no_lower (fun x hx => isLowerA_false_of_upper (hR x hx)),
    rep2_eq_self_of_no_lower (fun x hx => isLowerA_false_of_upper (hR x hx)),
    tokens_single hR0 (fun x hx => isDelim_false_of_upperA (hR x hx))]
  rfl

theorem splitWords_lower_then_upper {p R : List Char}
    (hp : ∀ a ∈ p, isLowerA a = true) (hp0 : p ≠ [])
    (hR : ∀ a ∈ R, isUpperA a = true) (hR0 : R ≠ []) :
    splitWords (String.mk (p ++ R)) = [String.mk p, String.mk R] := by
  rw [splitWords, wordsOf, show (String.mk (p ++ R)).data = p ++ R from rfl,
    rep1_junction hp hp0 hR hR0]
  have h2 : rep2 ((p ++ [' ']) ++ R) = (p ++ [' ']) ++ rep2 R :=
    rep2_append_of_no_upper (by
      intro x hx
      rcases List.mem_append.mp hx with h | h
      · exact isUpperA_false_of_lower (hp x h)
      · simp only [List.mem_singleton] at h
        rw [h]; decide)
  rw [rep2_eq_self_of_no_lower (fun x hx => isLowerA_false_of_upper (hR x hx))] at h2
  have h2' : rep2 (p ++ ' ' :: R) = p ++ ' ' :: R := by
    simpa [List.append_assoc] using h2
  rw [h2', tokens_sep R hp0 (fun x hx => isDelim_false_of_lowerA (hp x hx)) (by decide),
    tokens_single hR0 (fun x hx => isDelim_false_of_upperA (hR x hx))]
  rfl

theorem splitWords_no_delim_no_upper {l : List Char} (h0 : l ≠ [])
    (h : ∀ c ∈ l, isDelim c = false ∧ isUpperA c = false) :
    splitWords (String.mk l) = [String.mk l] := by
  rw [splitWords, wordsOf, show (String.mk l).data = l from rfl,
    rep1_eq_self_of_no_upper (fun x hx => (h x hx).2),
    rep2_eq_self_of_no_upper (fun x hx => (h x hx).2),
    tokens_single h0 (fun x hx => (h x hx).1)]
  rfl

theorem splitWords_no_delim_no_lower {l : List Char} (h0 : l ≠ [])
    (h : ∀ c ∈ l, isDelim c = false ∧ isLowerA c = false) :
    splitWords (String.mk l) = [String.mk l] := by
  rw [splitWords, wordsOf, show (String.mk l).data = l from rfl,
    rep1_eq_self_of_no_lower (fun x hx => (h x hx).2),
    rep2_eq_self_of_no_lower (fun x hx => (h x hx).2),
    tokens_single h0 (fun x hx => (h x hx).1)]
  rfl

/-! Equivalence of the pluralization and singularization implementations with
their specification models. -/

theorem data_ne_nil {s : String} (h : s ≠ "") : s.data ≠ [] := by
  intro hc
  apply h
  have hmk : String.mk s.data = s := by cases s; rfl
  rw [← hmk, hc]

theorem suffix_append_iff {s t u : List Char} (h : s.length = u.length) :
    (s <:+ t ++ u) ↔ u = s := by
  constructor
  · rintro ⟨v, hv⟩
    exact (List.append_inj' hv (by omega)).2.symm
  · intro h2
    subst h2
    exact List.suffix_append t _

theorem getLast?_append2 {t : List Char} {b a : Char} :
    (t ++ [b, a]).getLast? = some a := by
  rw [show t ++ [b, a] = (t ++ [b]) ++ [a] from by simp]
  exact List.getLast?_concat _

theorem sliceLast2_append2 {t : List Char} {b a : Char} :
    sliceLast2 (t ++ [b, a]) = [b, a] := by
  rw [sliceLast2, show (t ++ [b, a]).length = t.length + 2 from by simp,
    Nat.add_sub_cancel]
  exact List.drop_left _ _

theorem suffix1_append2 {t : List Char} {y b a : Char} :
    ([y] <:+ t ++ [b, a]) ↔ a = y := by
  rw [show t ++ [b, a] = (t ++ [b]) ++ [a] from by simp,
    suffix_append_iff (by simp)]
  simp

theorem suffix2_append2 {t : List Char} {y z b a : Char} :
    ([y, z] <:+ t ++ [b, a]) ↔ b = y ∧ a = z := by
  rw [suffix_append_iff (by simp)]
  simp

theorem pluralize_eq_spec (s : String) (h : s ≠ "") :
    pluralize s = pluralizeSpec s := by
  have hl := data_ne_nil h
  rcases List.eq_nil_or_concat s.data with hc | ⟨t, a, hta⟩
  · exact absurd hc hl
  · rcases List.eq_nil_or_concat t with hc | ⟨t', b, htb⟩
    · have hd : s.data = [a] := by rw [hta, hc]; rfl
      simp only [pluralize, pluralizeSpec, hd]
      simp [sliceLast2, List.suffix_cons_iff, List.suffix_nil]
      all_goals (first | rfl | (split_ifs <;> first | rfl | tauto))
    · have hd : s.data = t' ++ [b, a] := by
        rw [hta, htb]
        simp [List.concat_eq_append]
      simp only [pluralize, pluralizeSpec, hd]
      simp [getLast?_append2, sliceLast2_append2, suffix1_append2, suffix2_append2]

theorem suffix1_append4 {t : List Char} {y d c b a : Char} :
    ([y] <:+ t ++ [d, c, b, a]) ↔ a = y := by
  rw [show t ++ [d, c, b, a] = (t ++ [d, c, b]) ++ [a] from by simp,
    suffix_append_iff (by simp)]
  simp

theorem suffix2_append4 {t : List Char} {y z d c b a : Char} :
    ([y, z] <:+ t ++ [d, c, b, a]) ↔ b = y ∧ a = z := by
  rw [show t ++ [d, c, b, a] = (t ++ [d, c]) ++ [b, a] from by simp,
    suffix_append_iff (by simp)]
  simp

theorem suffix3_append4 {t : List Char} {x y z d c b a : Char} :
    ([x, y, z] <:+ t ++ [d, c, b, a]) ↔ c = x ∧ b = y ∧ a = z := by
  rw [show t ++ [d, c, b, a] = (t ++ [d]) ++ [c, b, a] from by simp,
    suffix_append_iff (by simp)]
  simp

theorem suffix4_append4 {t : List Char} {w x y z d c b a : Char} :
    ([w, x, y, z] <:+ t ++ [d, c, b, a]) ↔ d = w ∧ c = x ∧ b = y ∧ a = z := by
  rw [suffix_append_iff (by simp)]
  simp

theorem sliceM4M2_append4 {t : List Char} {d c b a : Char} :
    sliceM4M2 (t ++ [d, c, b, a]) = [d, c] := by
  rw [sliceM4M2, show (t ++ [d, c, b, a]).length = t.length + 4 from by simp,
    show t.length + 4 - 4 = t.length from by omega,
    show t.length + 4 - 2 - t.length = 2 from by omega,
    List.drop_left]
  rfl

theorem getElem_m3_append4 {t : List Char} {d c b a : Char} :
    (t ++ [d, c, b, a])[(t ++ [d, c, b, a]).length - 3]? = some c := by
  rw [show (t ++ [d, c, b, a]).length = t.length + 4 from by simp,
    show t.length + 4 - 3 = t.length + 1 from by omega,
    List.getElem?_append_right (by omega),
    show t.length + 1 - t.length = 1 from by omega]
  rfl

theorem singularize_eq_spec (s : String) (h : s ≠ "") :
    singularize s = singularizeSpec s := by
  have hl := data_ne_nil h
  rcases List.eq_nil_or_concat s.data with hc | ⟨t, a, hta⟩
  · exact absurd hc hl
  · rcases List.eq_nil_or_concat t with hc | ⟨t2, b, htb⟩
    · have hd : s.data = [a] := by rw [hta, hc]; rfl
      simp only [singularize, singularizeSpec, hd]
      simp [sliceM4M2, List.suffix_cons_iff, List.suffix_nil]
    · rcases List.eq_nil_or_concat t2 with hc | ⟨t3, c, htc⟩
      · have hd : s.data = [b, a] := by rw [hta, htb, hc]; rfl
        simp only [singularize, singularizeSpec, hd]
        simp [sliceM4M2, List.suffix_cons_iff, List.suffix_nil]
      · rcases List.eq_nil_or_concat t3 with hc | ⟨t4, d, htd⟩
        · have hd : s.data = [c, b, a] := by rw [hta, htb, htc, hc]; rfl
          simp only [singularize, singularizeSpec, hd]
          simp [sliceM4M2, List.suffix_cons_iff, List.suffix_nil]
        · have hd : s.data = t4 ++ [d, c, b, a] := by
            rw [hta, htb, htc, htd]
            simp [List.concat_eq_append]
          simp only [singularize, singularizeSpec, hd]
          simp [suffix1_append4, suffix2_append4, suffix3_append4, suffix4_append4,
            sliceM4M2_append4, getElem_m3_append4]
          exact if_congr Iff.rfl rfl (if_congr (by tauto) rfl rfl)


/-! Claim theorems. -/

theorem mk_append (a b : List Char) : String.mk a ++ String.mk b = String.mk (a ++ b) :=
  rfl

/-- C1: the literal style-conversion scenarios hold:
`camelCase "hello_world" = "helloWorld"`, `snakeCase "HelloWorld" = "hello_world"`,
`kebabCase "helloWorld" = "hello-world"`,
`screamingSnakeCase "hello-world" = "HELLO_WORLD"`; and runs of delimiters
collapse, so `camelCase "hello--world"` and `camelCase "hello-world"` both
yield `"helloWorld"`. -/
theorem claim_C1 :
    camelCase "hello_world" = "helloWorld" ∧
    snakeCase "HelloWorld" = "hello_world" ∧
    kebabCase "helloWorld" = "hello-world" ∧
    screamingSnakeCase "hello-world" = "HELLO_WORLD" ∧
    camelCase "hello--world" = "helloWorld" ∧
    camelCase "hello-world" = "helloWorld" := by
  decide

/-- C2: in a delimiter-free segment, an uppercase run of two or more letters
immediately followed by a lowercase letter is split before its last uppercase
letter; an uppercase run not followed by a lowercase letter stays one word;
a lowercase run followed by an uppercase run splits between them; and
concretely `splitWords "XMLParser" = ["XML", "Parser"]`,
`splitWords "HELLO" = ["HELLO"]`, `splitWords "helloWORLD" = ["hello", "WORLD"]`,
and `"XMLHttpRequest"` splits the leading acronym from the following
capitalized word. -/
theorem claim_C2 :
    (∀ (U w' : List Char) (u c : Char),
        (∀ a ∈ U, isUpperA a = true) → U ≠ [] → isUpperA u = true →
        isLowerA c = true → (∀ a ∈ w', isLowerA a = true) →
        splitWords (String.mk (U ++ u :: c :: w')) =
          [String.mk U, String.mk (u :: c :: w')]) ∧
    (∀ R : List Char, (∀ a ∈ R, isUpperA a = true) → R ≠ [] →
        splitWords (String.mk R) = [String.mk R]) ∧
    (∀ p R : List Char, (∀ a ∈ p, isLowerA a = true) → p ≠ [] →
        (∀ a ∈ R, isUpperA a = true) → R ≠ [] →
        splitWords (String.mk (p ++ R)) = [String.mk p, String.mk R]) ∧
    splitWords "XMLParser" = ["XML", "Parser"] ∧
    splitWords "HELLO" = ["HELLO"] ∧
    splitWords "helloWORLD" = ["hello", "WORLD"] ∧
    splitWords "XMLHttpRequest" = ["XML", "Http", "Request"] := by
  refine ⟨?_, ?_, ?_, by decide, by decide, by decide, by decide⟩
  · intro U w' u c hU hU0 hu hc hw
    exact splitWords_acronym hU hU0 hu hc hw
  · intro R hR hR0
    exact splitWords_upper_run hR hR0
  · intro p R hp hp0 hR hR0
    exact splitWords_lower_then_upper hp hp0 hR hR0

theorem claim_C2_witness :
    splitWords (String.mk (['X', 'M'] ++ 'L' :: 'p' :: ['q'])) =
      [String.mk ['X', 'M'], String.mk ('L' :: 'p' :: ['q'])] ∧
    splitWords (String.mk ['H', 'I']) = [String.mk ['H', 'I']] ∧
    splitWords (String.mk (['a', 'b'] ++ ['C', 'D'])) =
      [String.mk ['a', 'b'], String.mk ['C', 'D']] :=
  ⟨claim_C2.1 ['X', 'M'] ['q'] 'L' 'p' (by decide) (by decide) (by decide)
      (by decide) (by decide),
    claim_C2.2.1 ['H', 'I'] (by decide) (by decide),
    claim_C2.2.2.1 ['a', 'b'] ['C', 'D'] (by decide) (by decide) (by decide)
      (by decide)⟩

/-- C3 as stated is false: camelCase and pascalCase are not idempotent.  A
digit at the end of a word absorbs the following capital into the same word on
the second pass: `camelCase "foo1 bar" = "foo1Bar"` but
`camelCase "foo1Bar" = "foo1bar"`. -/
theorem claim_C3_counterexample :
    camelCase "foo1 bar" = "foo1Bar" ∧
    camelCase (camelCase "foo1 bar") = "foo1bar" ∧
    camelCase (camelCase "foo1 bar") ≠ camelCase "foo1 bar" ∧
    pascalCase "foo1 bar" = "Foo1Bar" ∧
    pascalCase (pascalCase "foo1 bar") ≠ pascalCase "foo1 bar" := by
  decide

/-- C3 (amended): snakeCase, kebabCase and screamingSnakeCase are idempotent
on every string; camelCase and pascalCase are not idempotent in general. -/
theorem claim_C3 :
    (∀ s : String, snakeCase (snakeCase s) = snakeCase s) ∧
    (∀ s : String, kebabCase (kebabCase s) = kebabCase s) ∧
    (∀ s : String, screamingSnakeCase (screamingSnakeCase s) = screamingSnakeCase s) :=
  ⟨snakeCase_idem, kebabCase_idem, screamingSnakeCase_idem⟩

/-- C4: all eleven public operations are total functions from strings to
strings (each embedding below is a total Lean function, so this holds by
construction), and each maps the empty string to the empty string. -/
theorem claim_C4 :
    uppercase "" = "" ∧ lowercase "" = "" ∧ capitalize "" = "" ∧
    uncapitalize "" = "" ∧ camelCase "" = "" ∧ pascalCase "" = "" ∧
    snakeCase "" = "" ∧ kebabCase "" = "" ∧ screamingSnakeCase "" = "" ∧
    pluralize "" = "" ∧ singularize "" = "" := by
  decide

/-- C5: on every non-empty string, pluralize agrees with the rule list of the
specification (first matching rule wins: trailing `y` becomes `ies`; trailing
`s`/`x`/`z`/`ch`/`sh` appends `es`; otherwise append `s`), and in particular
`pluralize "quiz" = "quizes"`, not `"quizzes"`. -/
theorem claim_C5 :
    (∀ s : String, s ≠ "" → pluralize s = pluralizeSpec s) ∧
    pluralize "quiz" = "quizes" :=
  ⟨pluralize_eq_spec, by decide⟩

theorem claim_C5_witness : pluralize "fox" = pluralizeSpec "fox" :=
  claim_C5.1 "fox" (by decide)

/-- C6: on every non-empty string, singularize agrees with the rule list of
the specification: trailing `ies` with length > 3 becomes `y`; trailing `es`
with length > 2 is stripped when the string ends in `ches`/`shes`/`sses` or
the character third from the end is `s`/`x`/`z`; otherwise a trailing `s`
with length > 1 is stripped; otherwise the string is unchanged. -/
theorem claim_C6 : ∀ s : String, s ≠ "" → singularize s = singularizeSpec s :=
  singularize_eq_spec

theorem claim_C6_witness : singularize "batches" = singularizeSpec "batches" :=
  claim_C6 "batches" (by decide)

/-- C7: capitalize uppercases only the first character and leaves the
remaining characters unmodified, so `capitalize "HELLO" = "HELLO"`;
uncapitalize lowercases only the first character and leaves the rest
unmodified. -/
theorem claim_C7 :
    (∀ (c : Char) (cs : List Char),
      capitalize (String.mk (c :: cs)) = String.mk (upperChar c :: cs)) ∧
    (∀ (c : Char) (cs : List Char),
      uncapitalize (String.mk (c :: cs)) = String.mk (lowerChar c :: cs)) ∧
    capitalize "HELLO" = "HELLO" ∧ uncapitalize "hELLO" = "hELLO" := by
  refine ⟨?_, ?_, by decide, by decide⟩
  · intro c cs
    simp [capitalize, jsCharAt, jsSliceFrom, mk_append]
  · intro c cs
    simp [uncapitalize, jsCharAt, jsSliceFrom, mk_append]

/-- C8 as stated is false: the delimiter class is the regex `[\s_-]`, and
JavaScript `\s` also matches tab (and other whitespace), so a tab character,
which is neither a letter nor one of space/hyphen/underscore, does trigger a
word boundary. -/
theorem claim_C8_counterexample :
    splitWords "a\tb" = ["a", "b"] ∧ splitWords "a\tb" ≠ ["a\tb"] ∧
    isDelim '\t' = true := by
  decide

/-- C8 (amended): the delimiters are JavaScript whitespace (space, tab,
newline, and the other `\s` characters), hyphen and underscore; a
delimiter-free string with no uppercase letter, or with no lowercase letter,
is kept as a single word with every character preserved literally — in
particular digits and symbols never trigger a boundary and attach to the
adjacent word. -/
theorem claim_C8 :
    (∀ l : List Char, l ≠ [] →
      (∀ c ∈ l, isDelim c = false ∧ isUpperA c = false) →
      splitWords (String.mk l) = [String.mk l]) ∧
    (∀ l : List Char, l ≠ [] →
      (∀ c ∈ l, isDelim c = false ∧ isLowerA c = false) →
      splitWords (String.mk l) = [String.mk l]) ∧
    splitWords "foo1!bar" = ["foo1!bar"] ∧
    splitWords "a1B2c" = ["a1B2c"] := by
  refine ⟨?_, ?_, by decide, by decide⟩
  · intro l h0 h
    exact splitWords_no_delim_no_upper h0 h
  · intro l h0 h
    exact splitWords_no_delim_no_lower h0 h

theorem claim_C8_witness :
    splitWords (String.mk ['x', '1', '!']) = [String.mk ['x', '1', '!']] ∧
    splitWords (String.mk ['X', '1', 'Y']) = [String.mk ['X', '1', 'Y']] :=
  ⟨claim_C8.1 ['x', '1', '!'] (by decide) (by decide),
    claim_C8.2.1 ['X', '1', 'Y'] (by decide) (by decide)⟩

/-- C9: the plural/singular round trip is the identity on the regular-noun
examples `item`, `property` and `class`, and concretely
`pluralize "batch" = "batches"` with `singularize "batches" = "batch"`. -/
theorem claim_C9 :
    singularize (pluralize "item") = "item" ∧
    singularize (pluralize "property") = "property" ∧
    singularize (pluralize "class") = "class" ∧
    pluralize "batch" = "batches" ∧ singularize "batches" = "batch" := by
  decide

/-- C10: the plural/singular round trip is not the identity on all strings:
`pluralize "case" = "cases"` but `singularize "cases" = "cas"`, because the
`es`-stripping rule fires whenever the character third from the end is `s`,
even when the original word ended in `e`. -/
theorem claim_C10 :
    pluralize "case" = "cases" ∧ singularize "cases" = "cas" ∧
    singularize (pluralize "case") ≠ "case" := by
  decide

end ConvertCase
